import Mathlib

/-!
Verification development for the lws-minimal-ws-client-binance example
(`minimal-examples/ws-client/minimal-ws-client-binance/main.c`).

The program is a resilient websocket client: a retry/backoff policy keeps the
connection nailed up, a lightweight field extractor pulls numeric fields out of
received JSON text, and two windowed min/max/sum/count aggregators (latency and
price) are summarised and reset on a one-second tick.

Shallow embedding conventions:
* C integers are modelled as `Int`/`Nat`.  `lws_usec_t` is `int64_t`; signed
  overflow is undefined behaviour in C, so the arithmetic is modelled exactly.
  The `(unsigned long long)` casts used when printing are modelled explicitly
  by reduction modulo `2 ^ 64` (`toULL`).
* C strings are `List Char`; the NUL terminator is represented by the end of
  the list (reading `s[1]`/`s[2]` past a terminator in the C source is guarded
  by short-circuit `&&`, mirrored by pattern matching on list length).
* Library routines of the repository that are not part of the example's own
  file (`lws_retry_*`, `lws_json_simple_find`, `lws_strnncpy`) are modelled
  from the specification's description of them; each such definition carries a
  doc comment saying so.
-/

/-- Aggregator state, from `struct range` (main.c lines 18-24): `sum`,
`lowest`, `highest` are `lws_usec_t` (= `int64_t`), `samples` is `int`. -/
structure range_t where
  sum : Int
  lowest : Int
  highest : Int
  samples : Int
deriving DecidableEq

/-- `range_reset` (main.c lines 125-131): `sum = highest = 0`,
`lowest = 999999999999ull`, `samples = 0`. -/
def range_reset : range_t :=
  { sum := 0, lowest := 999999999999, highest := 0, samples := 0 }

/-- One fold of a value into an aggregator, from the inlined update sequence in
`callback_minimal` (main.c lines 234-240 for latency, 248-254 for price):
conditional min/max update, then `sum += v`, `samples++`. -/
def range_fold (r : range_t) (v : Int) : range_t :=
  { sum := r.sum + v
    lowest := if v < r.lowest then v else r.lowest
    highest := if v > r.highest then v else r.highest
    samples := r.samples + 1 }

/-- Folding a whole sequence of values, left to right. -/
def range_fold_list (r : range_t) (l : List Int) : range_t :=
  l.foldl range_fold r

/-- Minimum of a value sequence (`none` when empty). -/
def seq_min : List Int → Option Int
  | [] => none
  | x :: xs => some (xs.foldl min x)

/-- Maximum of a value sequence (`none` when empty). -/
def seq_max : List Int → Option Int
  | [] => none
  | x :: xs => some (xs.foldl max x)

/-- `isdigit` from ctype.h, on the characters the example feeds it. -/
def isdigit (c : Char) : Bool := c.isDigit

/-- `isspace` from ctype.h: space, tab, newline, vertical tab, form feed,
carriage return. -/
def isspace (c : Char) : Bool :=
  c == ' ' || c == '\t' || c == '\n' || c == '\x0b' || c == '\x0c' || c == '\r'

/-- Numeric value of a digit character. -/
def digit_val (c : Char) : Int := (c.toNat : Int) - 48

/-- Value of the leading run of digit characters, accumulator style (the digit
loop inside `atoll`). -/
def digit_run_val : List Char → Int → Int
  | [], acc => acc
  | c :: cs, acc => if isdigit c then digit_run_val cs (acc * 10 + digit_val c) else acc

/-- `atoll` from stdlib: skip leading whitespace, optional sign, then the
leading digit run.  Out-of-`long long`-range inputs are undefined behaviour in
C; the model returns the exact value. -/
def atoll (s : List Char) : Int :=
  match s.dropWhile isspace with
  | [] => 0
  | c :: t =>
      if c = '-' then - digit_run_val t 0
      else if c = '+' then digit_run_val t 0
      else digit_run_val (c :: t) 0

/-- `strchr`: the suffix of the string starting at the first occurrence of the
character, or `none`. -/
def strchr : List Char → Char → Option (List Char)
  | [], _ => none
  | c :: cs, ch => if c = ch then some (c :: cs) else strchr cs ch

/-- `pennies` (main.c lines 176-187): `atoll(s) * 100`, plus the two-digit
value after the first `'.'` when the two following characters are digits.  In
C the guard reads `s[1]` and `s[2]` after the dot; the string terminator makes
a short pattern fall through to the no-fraction case, mirrored here by the
catch-all match arm. -/
def pennies (s : List Char) : Int :=
  let price := atoll s * 100
  match strchr s '.' with
  | some (_ :: d1 :: d2 :: _) =>
      if isdigit d1 && isdigit d2 then price + 10 * digit_val d1 + digit_val d2
      else price
  | _ => price

/-- The spec's own description of the conversion (§4.3 `to_fixed_point_cents`),
written independently of the source: parse the leading integer run as the
whole-currency value, multiply by 100; if a decimal point is present and is
followed by at least two digit characters, add their two-digit value; otherwise
the fractional contribution is zero. -/
def to_fixed_point_cents (s : List Char) : Int :=
  let whole := digit_run_val (s.takeWhile isdigit) 0
  let frac :=
    match s.dropWhile (fun c => c != '.') with
    | _ :: d1 :: d2 :: _ =>
        if isdigit d1 && isdigit d2 then 10 * digit_val d1 + digit_val d2 else 0
    | _ => 0
  whole * 100 + frac

/-- Structural delimiters ending a field value run.  Modelled from the spec:
"up to (but not including) the next structural delimiter (comma, closing
bracket, or quote)". -/
def is_delim (c : Char) : Bool := c == ',' || c == ']' || c == '\"'

/-- The run of bytes before the first structural delimiter. -/
def field_run (s : List Char) : List Char :=
  s.takeWhile (fun c => !is_delim c)

/-- The suffix of `buf` just after the first occurrence of `marker`, or `none`
when the marker does not occur. -/
def after_marker : List Char → List Char → Option (List Char)
  | [], m => if m.isEmpty then some [] else none
  | b :: bs, m =>
      if m.isPrefixOf (b :: bs) then some ((b :: bs).drop m.length)
      else after_marker bs m

/-- Modelled from the spec: `lws_json_simple_find` is repository library code
not present under the example's own file.  Per the spec (§4.3 FieldExtractor)
it performs a literal substring search for the marker within the buffer and,
on success, returns the run of bytes immediately following the marker up to
(but not including) the next structural delimiter; on failure it returns
not-found. -/
def lws_json_simple_find (buf marker : List Char) : Option (List Char) :=
  (after_marker buf marker).map field_run

/-- Modelled from the spec: `lws_strnncpy` is repository library code not
present under the example's own file; it is the bounded copy realising the
spec's "bounded by a fixed maximum length; longer values are truncated" — it
copies at most `destsize - 1` characters into the destination buffer and
terminates it. -/
def lws_strnncpy (src : List Char) (destsize : Nat) : List Char :=
  src.take (destsize - 1)

/-- The `"depthUpdate"` marker (with its quotes) searched first in every
received message. -/
def depthUpdate_marker : List Char := "\"depthUpdate\"".toList

/-- The `"E":` marker locating the event-time field. -/
def e_marker : List Char := "\"E\":".toList

/-- The `"a":[["` marker locating the first ask price. -/
def a_marker : List Char := "\"a\":[[\"".toList

/-- The retry/backoff policy record, from `lws_retry_bo_t` as initialised in
main.c lines 49-60 (the idle ping/hangup thresholds are liveness configuration
of the external transport and are not modelled). -/
structure lws_retry_bo where
  retry_ms_table : List Nat
  conceal_count : Nat
  jitter_percent : Nat
deriving DecidableEq

/-- The backoff table (main.c line 49). -/
def backoff_ms : List Nat := [1000, 2000, 3000, 4000, 5000]

/-- The configured policy (main.c lines 51-60): table = `backoff_ms`,
`conceal_count` = table length, `jitter_percent` = 0. -/
def retry : lws_retry_bo :=
  { retry_ms_table := backoff_ms
    conceal_count := backoff_ms.length
    jitter_percent := 0 }

/-- Modelled from the spec: the BackoffPolicy contract `next_delay`
(spec §4.1); the deciding code (`lws_retry_get_delay`) is repository library
code not present under the example's own file.  With `N` the table length, the
chosen delay is `table[attempt_count]` for `attempt_count < N` and the last
table entry otherwise; a random jitter in `[0, jitter_percent% of the chosen
delay]` is added (passed here as the explicit `jitter` argument, bounded by
hypotheses where it matters).  Exhaustion is signalled instead of a delay
exactly when `conceal_count <= N` and `attempt_count >= conceal_count`;
when `conceal_count > N` exhaustion is never signalled. -/
def next_delay (bo : lws_retry_bo) (attempt_count jitter : Nat) : Option Nat :=
  if bo.conceal_count ≤ bo.retry_ms_table.length ∧ bo.conceal_count ≤ attempt_count then
    none
  else
    some ((if attempt_count < bo.retry_ms_table.length then
             bo.retry_ms_table.getD attempt_count 0
           else
             bo.retry_ms_table.getD (bo.retry_ms_table.length - 1) 0) + jitter)

/-- Exhaustion condition of the policy (spec §4.1 give-up decision). -/
def retries_exhausted (bo : lws_retry_bo) (attempt_count : Nat) : Prop :=
  bo.conceal_count ≤ bo.retry_ms_table.length ∧ bo.conceal_count ≤ attempt_count

instance (bo : lws_retry_bo) (n : Nat) : Decidable (retries_exhausted bo n) :=
  inferInstanceAs (Decidable (_ ∧ _))

/-- Modelled from the spec: `lws_retry_sul_schedule` (and the wsi variant used
from `do_retry`) is repository library code not present under the example's
own file.  Per the spec it consults the policy at the current attempt count;
on a delay it schedules the retry after that delay and increments the caller's
attempt count, on exhaustion it returns failure.  The configured
`jitter_percent` is 0, so the jitter draw from `[0, 0]` is 0. -/
def lws_retry_sul_schedule (bo : lws_retry_bo) (attempt_count : Nat) :
    Option (Nat × Nat) :=
  match next_delay bo attempt_count 0 with
  | none => none
  | some d => some (d, attempt_count + 1)

/-- Supervisor state, from `struct my_conn` plus the globals it drives
(main.c lines 31-43): the two aggregators, the retry counter, the
`interrupted` flag, and whether the 1 Hz summary event is armed (the `wsi`
pointer itself is not modelled). -/
structure my_conn where
  e_lat_range : range_t
  price_range : range_t
  retry_count : Nat
  interrupted : Bool
  sul_hz_armed : Bool
deriving DecidableEq

/-- The shared retry path `do_retry` (main.c lines 276-293): schedule a retry
under the configured policy; on exhaustion set `interrupted = 1`. -/
def do_retry (c : my_conn) : my_conn :=
  match lws_retry_sul_schedule retry c.retry_count with
  | none => { c with interrupted := true }
  | some (_, n) => { c with retry_count := n }

/-- `LWS_US_PER_MS`. -/
def LWS_US_PER_MS : Int := 1000

/-- The `LWS_CALLBACK_CLIENT_RECEIVE` case (main.c lines 207-256).  `now_us`
is the single `get_us_timeofday()` sample taken before any extraction.  If the
`"depthUpdate"` marker is absent the message is skipped; if the `"E":` marker
is absent an error is logged and the message is skipped; otherwise the field
text is copied into the 16-byte `numbuf`, the latency `now_us - E * 1000` is
folded into the latency aggregator, and when the `"a":[["` marker is present
the price `pennies(field)` is folded into the price aggregator. -/
def client_receive (c : my_conn) (msg : List Char) (now_us : Int) : my_conn :=
  match lws_json_simple_find msg depthUpdate_marker with
  | none => c
  | some _ =>
    match lws_json_simple_find msg e_marker with
    | none => c
    | some etxt =>
      let latency_us := now_us - atoll (lws_strnncpy etxt 16) * LWS_US_PER_MS
      let c1 := { c with e_lat_range := range_fold c.e_lat_range latency_us }
      match lws_json_simple_find msg a_marker with
      | none => c1
      | some ptxt =>
          { c1 with price_range :=
              range_fold c1.price_range (pennies (lws_strnncpy ptxt 16)) }

/-- The callback reasons the example handles (other reasons fall through to
the dummy handler and leave the supervisor state unchanged). -/
inductive lws_callback_reason where
  | client_connection_error
  | client_receive (msg : List Char) (now_us : Int)
  | client_established
  | client_closed
deriving DecidableEq

/-- `callback_minimal` (main.c lines 189-294) as a state transformer on the
supervisor state. -/
def callback_minimal (c : my_conn) (e : lws_callback_reason) : my_conn :=
  match e with
  | .client_connection_error => do_retry c
  | .client_receive msg now_us => client_receive c msg now_us
  | .client_established =>
      { c with sul_hz_armed := true
               e_lat_range := range_reset
               price_range := range_reset }
  | .client_closed => do_retry c

/-- The `(unsigned long long)` cast applied when printing `lws_usec_t` values
(reduction of the two's-complement value modulo `2 ^ 64`). -/
def toULL (x : Int) : Int := x % (2 ^ 64)

/-- C `int64_t` division truncates toward zero. -/
def c_div (a b : Int) : Int := Int.tdiv a b

/-- The content of one emitted summary line: (min, max, avg, samples) exactly
as printed. -/
structure tick_out where
  price_line : Option (Int × Int × Int × Int)
  elat_line : Option (Int × Int × Int × Int)
deriving DecidableEq

/-- The price summary line of `sul_hz_cb`: emitted only when `samples` is
nonzero, carrying `lowest`, `highest`, `sum / samples` and `samples`, the
first three through the `(unsigned long long)` print cast. -/
def price_line_of (r : range_t) : Option (Int × Int × Int × Int) :=
  if r.samples ≠ 0 then
    some (toULL r.lowest, toULL r.highest, toULL (c_div r.sum r.samples), r.samples)
  else none

/-- The latency summary line of `sul_hz_cb`: as the price line but with the
printed values further divided by 1000 (µs → ms) after the cast. -/
def elat_line_of (r : range_t) : Option (Int × Int × Int × Int) :=
  if r.samples ≠ 0 then
    some (toULL r.lowest / 1000, toULL r.highest / 1000,
          toULL (c_div r.sum r.samples) / 1000, r.samples)
  else none

/-- `sul_hz_cb` (main.c lines 143-174): re-arm the 1 Hz event, emit each
metric's summary line only when it has samples, then reset both aggregators
unconditionally. -/
def sul_hz_cb (c : my_conn) : my_conn × tick_out :=
  ({ c with sul_hz_armed := true
            e_lat_range := range_reset
            price_range := range_reset },
   { price_line := price_line_of c.price_range
     elat_line := elat_line_of c.e_lat_range })

/-- `connect_client` (main.c lines 90-123): attempt the connection; on
immediate failure schedule a retry by the same policy, setting
`interrupted = 1` on exhaustion.  The connect outcome is external input. -/
def connect_client (connect_ok : Bool) (c : my_conn) : my_conn :=
  if connect_ok then c
  else
    match lws_retry_sul_schedule retry c.retry_count with
    | none => { c with interrupted := true }
    | some (_, n) => { c with retry_count := n }

/-- The three event kinds the scheduler delivers to the supervisor. -/
inductive sched_event where
  | wsi_callback (e : lws_callback_reason)
  | connect_attempt (connect_ok : Bool)
  | hz_tick
deriving DecidableEq

/-- One serialized event-loop step of the supervisor. -/
def event_step (c : my_conn) (e : sched_event) : my_conn :=
  match e with
  | .wsi_callback r => callback_minimal c r
  | .connect_attempt ok => connect_client ok c
  | .hz_tick => (sul_hz_cb c).fst

/-- The main loop guard `n >= 0 && !interrupted` (main.c line 333). -/
def main_loop_continues (n : Int) (interrupted : Bool) : Bool :=
  decide (0 ≤ n) && !interrupted

/-- The scheduled-retry trace: run `k` consecutive connection failures from a
given attempt count, recording each scheduled delay, stopping at exhaustion. -/
def retry_trace : Nat → Nat → List (Option Nat)
  | 0, _ => []
  | k + 1, count =>
    match lws_retry_sul_schedule retry count with
    | none => [none]
    | some (d, n) => some d :: retry_trace k n

/-! ## Aggregator lemmas -/

theorem range_fold_lowest (r : range_t) (v : Int) :
    (range_fold r v).lowest = min r.lowest v := by
  simp only [range_fold, min_def]
  split <;> split <;> omega

theorem range_fold_highest (r : range_t) (v : Int) :
    (range_fold r v).highest = max r.highest v := by
  simp only [range_fold, max_def]
  split <;> split <;> omega

theorem range_fold_list_sum :
    ∀ (l : List Int) (r : range_t), (range_fold_list r l).sum = r.sum + l.sum := by
  intro l
  induction l with
  | nil => intro r; simp [range_fold_list]
  | cons x xs ih =>
      intro r
      simp only [range_fold_list, List.foldl_cons, List.sum_cons] at *
      rw [ih]
      simp only [range_fold]
      omega

theorem range_fold_list_samples :
    ∀ (l : List Int) (r : range_t),
      (range_fold_list r l).samples = r.samples + (l.length : Int) := by
  intro l
  induction l with
  | nil => intro r; simp [range_fold_list]
  | cons x xs ih =>
      intro r
      simp only [range_fold_list, List.foldl_cons, List.length_cons] at *
      rw [ih]
      simp only [range_fold]
      push_cast
      omega

theorem range_fold_list_lowest :
    ∀ (l : List Int) (r : range_t),
      (range_fold_list r l).lowest = l.foldl min r.lowest := by
  intro l
  induction l with
  | nil => intro r; simp [range_fold_list]
  | cons x xs ih =>
      intro r
      simp only [range_fold_list, List.foldl_cons] at *
      rw [ih, range_fold_lowest]

theorem range_fold_list_highest :
    ∀ (l : List Int) (r : range_t),
      (range_fold_list r l).highest = l.foldl max r.highest := by
  intro l
  induction l with
  | nil => intro r; simp [range_fold_list]
  | cons x xs ih =>
      intro r
      simp only [range_fold_list, List.foldl_cons] at *
      rw [ih, range_fold_highest]

theorem foldl_min_le_init :
    ∀ (l : List Int) (a : Int), l.foldl min a ≤ a := by
  intro l
  induction l with
  | nil => intro a; simp
  | cons x xs ih =>
      intro a
      simp only [List.foldl_cons]
      exact le_trans (ih (min a x)) (min_le_left a x)

theorem le_foldl_max_init :
    ∀ (l : List Int) (a : Int), a ≤ l.foldl max a := by
  intro l
  induction l with
  | nil => intro a; simp
  | cons x xs ih =>
      intro a
      simp only [List.foldl_cons]
      exact le_trans (le_max_left a x) (ih (max a x))

theorem foldl_min_le_mem :
    ∀ (l : List Int) (a v : Int), v ∈ l → l.foldl min a ≤ v := by
  intro l
  induction l with
  | nil => intro a v hv; cases hv
  | cons x xs ih =>
      intro a v hv
      simp only [List.foldl_cons]
      rcases List.mem_cons.mp hv with h | h
      · subst h
        exact le_trans (foldl_min_le_init xs (min a v)) (min_le_right a v)
      · exact ih (min a x) v h

theorem le_foldl_max_mem :
    ∀ (l : List Int) (a v : Int), v ∈ l → v ≤ l.foldl max a := by
  intro l
  induction l with
  | nil => intro a v hv; cases hv
  | cons x xs ih =>
      intro a v hv
      simp only [List.foldl_cons]
      rcases List.mem_cons.mp hv with h | h
      · subst h
        exact le_trans (le_max_right a v) (le_foldl_max_init xs (max a v))
      · exact ih (max a x) v h

theorem le_foldl_min :
    ∀ (l : List Int) (a b : Int), b ≤ a → (∀ v ∈ l, b ≤ v) → b ≤ l.foldl min a := by
  intro l
  induction l with
  | nil => intro a b hba _; simpa using hba
  | cons x xs ih =>
      intro a b hba hb
      simp only [List.foldl_cons]
      exact ih (min a x) b (le_min hba (hb x (List.mem_cons_self x xs)))
        fun v hv => hb v (List.mem_cons_of_mem x hv)

theorem foldl_max_le :
    ∀ (l : List Int) (a b : Int), a ≤ b → (∀ v ∈ l, v ≤ b) → l.foldl max a ≤ b := by
  intro l
  induction l with
  | nil => intro a b hab _; simpa using hab
  | cons x xs ih =>
      intro a b hab hb
      simp only [List.foldl_cons]
      exact ih (max a x) b (max_le hab (hb x (List.mem_cons_self x xs)))
        fun v hv => hb v (List.mem_cons_of_mem x hv)

theorem list_sum_le_length_mul :
    ∀ (l : List Int) (B : Int), (∀ v ∈ l, v ≤ B) → l.sum ≤ (l.length : Int) * B := by
  intro l
  induction l with
  | nil => intro B _; simp
  | cons x xs ih =>
      intro B hb
      simp only [List.sum_cons, List.length_cons]
      have h1 : x ≤ B := hb x (List.mem_cons_self x xs)
      have h2 : xs.sum ≤ (xs.length : Int) * B :=
        ih B fun v hv => hb v (List.mem_cons_of_mem x hv)
      push_cast
      nlinarith

/-! ## C1: aggregator correctness -/

/-- C1 counterexample: the claim "for every finite non-empty sequence of
folded values ... lowest == min(sequence) ... highest == max(sequence)" fails
on the code.  Folding the single value 1000000000000 (one more than the
sentinel) from the reset state leaves `lowest` at the sentinel 999999999999,
not at the sequence minimum; folding the single value -1 leaves `highest` at
0, not at the sequence maximum. -/
theorem C1_counterexample :
    seq_min [(1000000000000 : Int)] = some 1000000000000 ∧
    (range_fold_list range_reset [(1000000000000 : Int)]).lowest ≠ 1000000000000 ∧
    seq_max [(-1 : Int)] = some (-1) ∧
    (range_fold_list range_reset [(-1 : Int)]).highest ≠ -1 := by
  decide

/-- C1 (amended): for every finite non-empty sequence of values, each lying
between 0 and the sentinel 999999999999, folded into the aggregator from its
reset state, the resulting state satisfies `lowest = min(sequence)`,
`highest = max(sequence)`, `sum = Σ sequence`, `samples = length`; the
snapshot summarised at the next tick reports exactly these values (minimum,
maximum, truncated mean `sum / samples`, and count), and the tick's reset
leaves the aggregator in the empty state
(`lowest = 999999999999`, `highest = 0`, `sum = 0`, `samples = 0`). -/
theorem C1_aggregator_correct (x : Int) (xs : List Int) (c : my_conn)
    (hb : ∀ v ∈ x :: xs, 0 ≤ v ∧ v ≤ 999999999999)
    (hc : c.price_range = range_fold_list range_reset (x :: xs)) :
    seq_min (x :: xs) = some (range_fold_list range_reset (x :: xs)).lowest ∧
    seq_max (x :: xs) = some (range_fold_list range_reset (x :: xs)).highest ∧
    (range_fold_list range_reset (x :: xs)).sum = (x :: xs).sum ∧
    (range_fold_list range_reset (x :: xs)).samples = ((x :: xs).length : Int) ∧
    (sul_hz_cb c).snd.price_line =
      some ((range_fold_list range_reset (x :: xs)).lowest,
            (range_fold_list range_reset (x :: xs)).highest,
            c_div ((x :: xs).sum) (((x :: xs).length : Nat) : Int),
            (((x :: xs).length : Nat) : Int)) ∧
    (sul_hz_cb c).fst.price_range = range_reset ∧
    (sul_hz_cb c).fst.e_lat_range = range_reset ∧
    range_reset = { sum := 0, lowest := 999999999999, highest := 0, samples := 0 } := by
  have hx := hb x (List.mem_cons_self x xs)
  have hxs : ∀ v ∈ xs, 0 ≤ v ∧ v ≤ 999999999999 :=
    fun v hv => hb v (List.mem_cons_of_mem x hv)
  have hlow : (range_fold_list range_reset (x :: xs)).lowest = xs.foldl min x := by
    rw [range_fold_list_lowest]
    simp only [List.foldl_cons, range_reset]
    rw [min_eq_right hx.2]
  have hhigh : (range_fold_list range_reset (x :: xs)).highest = xs.foldl max x := by
    rw [range_fold_list_highest]
    simp only [List.foldl_cons, range_reset]
    rw [max_eq_right hx.1]
  have hsum : (range_fold_list range_reset (x :: xs)).sum = (x :: xs).sum := by
    rw [range_fold_list_sum]
    simp [range_reset]
  have hsamp : (range_fold_list range_reset (x :: xs)).samples = ((x :: xs).length : Int) := by
    rw [range_fold_list_samples]
    simp [range_reset]
  have hlow0 : 0 ≤ (range_fold_list range_reset (x :: xs)).lowest := by
    rw [hlow]
    exact le_foldl_min xs x 0 hx.1 fun v hv => (hxs v hv).1
  have hlowB : (range_fold_list range_reset (x :: xs)).lowest ≤ 999999999999 := by
    rw [hlow]
    exact le_trans (foldl_min_le_init xs x) hx.2
  have hhigh0 : 0 ≤ (range_fold_list range_reset (x :: xs)).highest := by
    rw [hhigh]
    exact le_trans hx.1 (le_foldl_max_init xs x)
  have hhighB : (range_fold_list range_reset (x :: xs)).highest ≤ 999999999999 := by
    rw [hhigh]
    exact foldl_max_le xs x 999999999999 hx.2 fun v hv => (hxs v hv).2
  have hsum0 : 0 ≤ (x :: xs).sum :=
    List.sum_nonneg fun v hv => (hb v hv).1
  have hlen : (0 : Int) < ((x :: xs).length : Int) := by
    exact_mod_cast Nat.succ_pos xs.length
  have havg_eq : c_div ((x :: xs).sum) (((x :: xs).length : Nat) : Int) =
      (x :: xs).sum / (((x :: xs).length : Nat) : Int) :=
    Int.tdiv_eq_ediv hsum0 (le_of_lt hlen)
  have havg0 : 0 ≤ (x :: xs).sum / (((x :: xs).length : Nat) : Int) :=
    Int.ediv_nonneg hsum0 (le_of_lt hlen)
  have hsumle : (x :: xs).sum ≤ (((x :: xs).length : Nat) : Int) * 999999999999 :=
    list_sum_le_length_mul (x :: xs) 999999999999 fun v hv => (hb v hv).2
  have havgB : (x :: xs).sum / (((x :: xs).length : Nat) : Int) ≤ 999999999999 := by
    have h1 := Int.ediv_le_ediv hlen hsumle
    rwa [Int.mul_ediv_cancel_left _ (ne_of_gt hlen)] at h1
  have hs0 : (range_fold_list range_reset (x :: xs)).samples ≠ 0 := by
    rw [hsamp]
    simp only [List.length_cons]
    push_cast
    omega
  refine ⟨by simp [seq_min, hlow], by simp [seq_max, hhigh], hsum, hsamp, ?_, rfl, rfl, rfl⟩
  have e1 : toULL (range_fold_list range_reset (x :: xs)).lowest =
      (range_fold_list range_reset (x :: xs)).lowest :=
    Int.emod_eq_of_lt hlow0 (lt_of_le_of_lt hlowB (by norm_num))
  have e2 : toULL (range_fold_list range_reset (x :: xs)).highest =
      (range_fold_list range_reset (x :: xs)).highest :=
    Int.emod_eq_of_lt hhigh0 (lt_of_le_of_lt hhighB (by norm_num))
  have e3 : toULL (c_div ((x :: xs).sum) (((x :: xs).length : Nat) : Int)) =
      c_div ((x :: xs).sum) (((x :: xs).length : Nat) : Int) := by
    rw [havg_eq]
    exact Int.emod_eq_of_lt havg0 (lt_of_le_of_lt havgB (by norm_num))
  simp only [sul_hz_cb, price_line_of, hc]
  rw [if_pos hs0, hsum, hsamp, e1, e2, e3]

/-- C1 witness: the amended theorem at the concrete sequence `[5, 3, 7]`. -/
theorem C1_witness :
    seq_min [(5 : Int), 3, 7] =
      some (range_fold_list range_reset [(5 : Int), 3, 7]).lowest ∧
    (range_fold_list range_reset [(5 : Int), 3, 7]).sum = 15 ∧
    (range_fold_list range_reset [(5 : Int), 3, 7]).samples = 3 := by
  have h := C1_aggregator_correct 5 [3, 7]
    ⟨range_reset, range_fold_list range_reset [(5 : Int), 3, 7], 0, false, true⟩
    (by decide) rfl
  exact ⟨h.1, by decide, by decide⟩

/-! ## C9: bounds invariant -/

/-- C9: after any sequence of folds from the reset state, every folded value
`v` satisfies `lowest ≤ v ≤ highest`; one fold places the newly folded value
inside the bounds and preserves the bounds around any previously bounded
value; the reset state has `samples = 0`, so the invariant is re-established
vacuously by every reset. -/
theorem C9_bounds_invariant (l : List Int) (v w : Int) (r : range_t)
    (hv : v ∈ l) (hw1 : r.lowest ≤ w) (hw2 : w ≤ r.highest) :
    ((range_fold_list range_reset l).lowest ≤ v ∧
      v ≤ (range_fold_list range_reset l).highest) ∧
    ((range_fold r v).lowest ≤ v ∧ v ≤ (range_fold r v).highest) ∧
    ((range_fold r v).lowest ≤ w ∧ w ≤ (range_fold r v).highest) ∧
    range_reset.samples = 0 := by
  refine ⟨⟨?_, ?_⟩, ⟨?_, ?_⟩, ⟨?_, ?_⟩, rfl⟩
  · rw [range_fold_list_lowest]
    exact foldl_min_le_mem l _ v hv
  · rw [range_fold_list_highest]
    exact le_foldl_max_mem l _ v hv
  · rw [range_fold_lowest]
    exact min_le_right _ _
  · rw [range_fold_highest]
    exact le_max_right _ _
  · rw [range_fold_lowest]
    exact le_trans (min_le_left _ _) hw1
  · rw [range_fold_highest]
    exact le_trans hw2 (le_max_left _ _)

/-- C9 witness: the invariant at the concrete sequence `[2, 9]`, fold value 9,
and prior state `⟨0, 1, 5, 1⟩` with bounded value 3. -/
theorem C9_witness :
    (range_fold_list range_reset [(2 : Int), 9]).lowest ≤ 9 ∧
    (9 : Int) ≤ (range_fold_list range_reset [(2 : Int), 9]).highest ∧
    (range_fold ⟨0, 1, 5, 1⟩ 9).lowest ≤ 3 ∧
    (3 : Int) ≤ (range_fold ⟨0, 1, 5, 1⟩ 9).highest := by
  have h := C9_bounds_invariant [2, 9] 9 3 ⟨0, 1, 5, 1⟩ (by decide) (by decide) (by decide)
  exact ⟨h.1.1, h.1.2, h.2.2.1.1, h.2.2.1.2⟩

/-! ## C2: fixed-point conversion -/

theorem digit_run_val_takeWhile :
    ∀ (s : List Char) (acc : Int),
      digit_run_val s acc = digit_run_val (s.takeWhile isdigit) acc := by
  intro s
  induction s with
  | nil => intro acc; rfl
  | cons c cs ih =>
      intro acc
      cases hc : isdigit c
      · simp [digit_run_val, List.takeWhile_cons, hc]
      · simp [digit_run_val, List.takeWhile_cons, hc, ih]

theorem numeric_isspace (c : Char) (h : isdigit c = true ∨ c = '.') :
    isspace c = false := by
  cases hs : isspace c
  · rfl
  · exfalso
    simp only [isspace, Bool.or_eq_true, beq_iff_eq] at hs
    rcases h with h | h
    · rcases hs with ((((h1 | h1) | h1) | h1) | h1) | h1 <;> subst h1 <;>
        exact absurd h (by decide)
    · subst h
      rcases hs with ((((h1 | h1) | h1) | h1) | h1) | h1 <;>
        exact absurd h1 (by decide)

theorem atoll_numeric (s : List Char) (h : ∀ c ∈ s, isdigit c = true ∨ c = '.') :
    atoll s = digit_run_val s 0 := by
  cases s with
  | nil => rfl
  | cons c cs =>
      have hc := h c (List.mem_cons_self c cs)
      have hsp : isspace c = false := numeric_isspace c hc
      have hminus : ¬(c = '-') := by
        intro he
        subst he
        rcases hc with h1 | h1 <;> exact absurd h1 (by decide)
      have hplus : ¬(c = '+') := by
        intro he
        subst he
        rcases hc with h1 | h1 <;> exact absurd h1 (by decide)
      simp [atoll, List.dropWhile_cons, hsp, hminus, hplus]

theorem strchr_eq_dropWhile :
    ∀ (s : List Char) (ch : Char),
      strchr s ch =
        if (s.dropWhile (fun c => c != ch)).isEmpty then none
        else some (s.dropWhile (fun c => c != ch)) := by
  intro s
  induction s with
  | nil => intro ch; rfl
  | cons c cs ih =>
      intro ch
      by_cases h : c = ch
      · subst h
        simp [strchr, List.dropWhile_cons]
      · simp [strchr, List.dropWhile_cons, h, ih, bne_iff_ne]

/-- C2: on every numeric text string (characters all digits or `'.'`), the
source's `pennies` agrees with the spec's `to_fixed_point_cents`: the leading
integer run times 100, plus, when the first `'.'` is followed by at least two
digit characters, their two-digit value, and zero fractional contribution
otherwise; in particular `pennies "123.45" = 12345` and
`pennies "100" = 10000`. -/
theorem C2_pennies_fixed_point (s : List Char)
    (hnum : ∀ c ∈ s, isdigit c = true ∨ c = '.') :
    pennies s = to_fixed_point_cents s ∧
    pennies "123.45".toList = 12345 ∧
    pennies "100".toList = 10000 := by
  refine ⟨?_, by decide, by decide⟩
  simp only [pennies, to_fixed_point_cents]
  rw [atoll_numeric s hnum, digit_run_val_takeWhile s 0, strchr_eq_dropWhile]
  cases hd : s.dropWhile (fun c => c != '.') with
  | nil => simp
  | cons a t =>
      cases t with
      | nil => simp
      | cons d1 t2 =>
          cases t2 with
          | nil => simp
          | cons d2 t3 =>
              simp only [List.isEmpty_cons, if_false, Bool.false_eq_true]
              cases hdig : (isdigit d1 && isdigit d2) <;> (simp [hdig]; try ring)

/-- C2 witness: the conversion theorem at the concrete inputs `"123.45"` and
`"100"`. -/
theorem C2_witness :
    pennies "123.45".toList = to_fixed_point_cents "123.45".toList ∧
    pennies "100".toList = 10000 :=
  ⟨(C2_pennies_fixed_point "123.45".toList (by decide)).1,
   (C2_pennies_fixed_point "100".toList (by decide)).2.2⟩

/-! ## C3, C4: backoff policy, exhaustion and termination -/

theorem client_receive_preserves (c : my_conn) (m : List Char) (now_us : Int) :
    (client_receive c m now_us).interrupted = c.interrupted ∧
    (client_receive c m now_us).retry_count = c.retry_count ∧
    (client_receive c m now_us).sul_hz_armed = c.sul_hz_armed := by
  unfold client_receive
  rcases lws_json_simple_find m depthUpdate_marker with _ | v1
  · exact ⟨rfl, rfl, rfl⟩
  · rcases lws_json_simple_find m e_marker with _ | v2
    · exact ⟨rfl, rfl, rfl⟩
    · rcases lws_json_simple_find m a_marker with _ | v3 <;> exact ⟨rfl, rfl, rfl⟩

theorem do_retry_interrupted (c : my_conn) (hi : c.interrupted = false) :
    (do_retry c).interrupted = true ↔ retries_exhausted retry c.retry_count := by
  unfold retries_exhausted
  by_cases h : retry.conceal_count ≤ retry.retry_ms_table.length ∧
      retry.conceal_count ≤ c.retry_count
  · simp [do_retry, lws_retry_sul_schedule, next_delay, h]
  · simp [do_retry, lws_retry_sul_schedule, next_delay, h, hi]

theorem connect_client_false_eq (c : my_conn) :
    connect_client false c = do_retry c := rfl

/-- C3: with `conceal_count <= N` (`N` the backoff table length) the policy
signals exhaustion iff `attempt_count >= conceal_count`, and with
`conceal_count > N` it never signals exhaustion; on any supervisor event from
a non-interrupted state, the terminal stop flag `interrupted` is raised iff
the event is a connection failure/closure and the configured policy is
exhausted at the current attempt count; and with a non-negative service
result (normal operation) the main loop stops iff `interrupted` is set. -/
theorem C3_exhaustion_terminal (bo : lws_retry_bo) (attempt_count jitter : Nat)
    (c : my_conn) (e : sched_event) (n : Int)
    (hi : c.interrupted = false) (hn : 0 ≤ n) :
    (bo.conceal_count ≤ bo.retry_ms_table.length →
      (next_delay bo attempt_count jitter = none ↔
        bo.conceal_count ≤ attempt_count)) ∧
    (bo.retry_ms_table.length < bo.conceal_count →
      next_delay bo attempt_count jitter ≠ none) ∧
    ((event_step c e).interrupted = true ↔
      ((e = .wsi_callback .client_connection_error ∨
        e = .wsi_callback .client_closed ∨
        e = .connect_attempt false) ∧
       retries_exhausted retry c.retry_count)) ∧
    (main_loop_continues n (event_step c e).interrupted = false ↔
      (event_step c e).interrupted = true) := by
  refine ⟨?_, ?_, ?_, ?_⟩
  · intro h
    unfold next_delay
    by_cases h2 : bo.conceal_count ≤ attempt_count
    · simp [h, h2]
    · simp [h2]
  · intro h
    unfold next_delay
    have hc : ¬(bo.conceal_count ≤ bo.retry_ms_table.length ∧
        bo.conceal_count ≤ attempt_count) := by omega
    simp [hc]
  · cases e with
    | wsi_callback r =>
        cases r with
        | client_connection_error =>
            simp only [event_step, callback_minimal]
            rw [do_retry_interrupted c hi]
            constructor
            · intro h
              exact ⟨Or.inl trivial, h⟩
            · intro h
              exact h.2
        | client_receive m now_us =>
            simp only [event_step, callback_minimal,
              (client_receive_preserves c m now_us).1, hi]
            simp
        | client_established =>
            simp only [event_step, callback_minimal]
            simp [hi]
        | client_closed =>
            simp only [event_step, callback_minimal]
            rw [do_retry_interrupted c hi]
            constructor
            · intro h
              exact ⟨Or.inr (Or.inl trivial), h⟩
            · intro h
              exact h.2
    | connect_attempt ok =>
        cases ok with
        | false =>
            simp only [event_step, connect_client_false_eq]
            rw [do_retry_interrupted c hi]
            constructor
            · intro h
              exact ⟨Or.inr (Or.inr trivial), h⟩
            · intro h
              exact h.2
        | true =>
            simp only [event_step, connect_client]
            simp [hi]
    | hz_tick =>
        simp only [event_step, sul_hz_cb]
        simp [hi]
  · have hd : decide (0 ≤ n) = true := decide_eq_true hn
    cases hv : (event_step c e).interrupted <;>
      simp [main_loop_continues, hd, hv]

/-- C3 witness: the exhaustion and termination behaviour at the configured
policy, attempt counts 5 and 4, and a connection-error event. -/
theorem C3_witness :
    next_delay retry 5 0 = none ∧
    next_delay retry 4 0 ≠ none ∧
    (event_step ⟨range_reset, range_reset, 5, false, false⟩
      (.wsi_callback .client_connection_error)).interrupted = true ∧
    main_loop_continues 0
      (event_step ⟨range_reset, range_reset, 5, false, false⟩
        (.wsi_callback .client_connection_error)).interrupted = false := by
  have h5 := C3_exhaustion_terminal retry 5 0
    ⟨range_reset, range_reset, 5, false, false⟩
    (.wsi_callback .client_connection_error) 0 rfl (by decide)
  have h4 := C3_exhaustion_terminal retry 4 0
    ⟨range_reset, range_reset, 4, false, false⟩
    (.wsi_callback .client_closed) 0 rfl (by decide)
  have hstep : (event_step ⟨range_reset, range_reset, 5, false, false⟩
      (.wsi_callback .client_connection_error)).interrupted = true :=
    (h5.2.2.1).mpr ⟨Or.inl rfl, by decide⟩
  refine ⟨(h5.1 (by decide)).mpr (by decide), ?_, hstep, (h5.2.2.2).mpr hstep⟩
  intro hcontra
  exact absurd ((h4.1 (by decide)).mp hcontra) (by decide)

/-- C4: for every attempt count, the policy either signals exhaustion or
selects table index `min(attempt_count, N-1)`; for the configured policy
(table `{1000,2000,3000,4000,5000}`, `conceal_count = 5`,
`jitter_percent = 0`, which forces a zero jitter draw) every
`attempt_count < 5` yields exactly `table[attempt_count]`; and starting from
attempt count 0, five consecutive connection failures schedule retries with
delays 1000, 2000, 3000, 4000, 5000 and the sixth failure signals
exhaustion. -/
theorem C4_backoff_index (bo : lws_retry_bo) (attempt_count jitter : Nat) :
    (retries_exhausted bo attempt_count ∨
      next_delay bo attempt_count jitter =
        some (bo.retry_ms_table.getD
                (min attempt_count (bo.retry_ms_table.length - 1)) 0 + jitter)) ∧
    (attempt_count < backoff_ms.length →
      100 * jitter ≤ retry.jitter_percent * backoff_ms.getD attempt_count 0 →
      next_delay retry attempt_count jitter =
        some (backoff_ms.getD attempt_count 0)) ∧
    retry_trace 6 0 =
      [some 1000, some 2000, some 3000, some 4000, some 5000, none] := by
  refine ⟨?_, ?_, by decide⟩
  · by_cases h : retries_exhausted bo attempt_count
    · exact Or.inl h
    · right
      unfold retries_exhausted at h
      unfold next_delay
      rw [if_neg h]
      rcases Nat.lt_or_ge attempt_count bo.retry_ms_table.length with hlt | hge
      · rw [if_pos hlt, Nat.min_eq_left (by omega)]
      · rw [if_neg (by omega), Nat.min_eq_right (by omega)]
  · intro hlt hj
    have hp : retry.jitter_percent = 0 := rfl
    rw [hp, Nat.zero_mul] at hj
    have hj0 : jitter = 0 := by omega
    subst hj0
    have h5 : backoff_ms.length = 5 := rfl
    have hcc : retry.conceal_count = 5 := rfl
    have hlen : retry.retry_ms_table.length = 5 := rfl
    rw [h5] at hlt
    unfold next_delay
    rw [if_neg (by rw [hcc, hlen]; omega), if_pos (by rw [hlen]; omega)]
    simp [retry]

/-- C4 witness: the index/delay properties at attempt count 2 under the
configured policy, and the concrete five-failure trace. -/
theorem C4_witness :
    next_delay retry 2 0 = some 3000 ∧
    retry_trace 6 0 =
      [some 1000, some 2000, some 3000, some 4000, some 5000, none] := by
  have h := C4_backoff_index retry 2 0
  exact ⟨(h.2.1 (by decide) (by decide)).trans (by decide), h.2.2⟩

/-! ## C5: effects of the established transition -/

/-- C5 counterexample: the claim "on connect-succeeded the Supervisor resets
attempt_count (retry_count) to 0" fails on the code: from a state with
`retry_count = 3`, the `LWS_CALLBACK_CLIENT_ESTABLISHED` case leaves
`retry_count` at 3; no statement of the established case (main.c lines
258-265) writes `retry_count`. -/
theorem C5_counterexample :
    (callback_minimal ⟨range_reset, range_reset, 3, false, false⟩
      .client_established).retry_count ≠ 0 := by
  decide

/-- C5 (amended): on every connect-succeeded transition
(`LWS_CALLBACK_CLIENT_ESTABLISHED`), the supervisor resets both the latency
and price aggregators to the empty state and arms the recurring one-second
tick event; the retry count is left unchanged (it is not reset to 0). -/
theorem C5_established_effects (c : my_conn) :
    callback_minimal c .client_established =
      { c with e_lat_range := range_reset
               price_range := range_reset
               sul_hz_armed := true } ∧
    (callback_minimal c .client_established).e_lat_range = range_reset ∧
    (callback_minimal c .client_established).price_range = range_reset ∧
    (callback_minimal c .client_established).sul_hz_armed = true ∧
    (callback_minimal c .client_established).retry_count = c.retry_count :=
  ⟨rfl, rfl, rfl, rfl, rfl⟩

/-! ## C6: tick emission and reset -/

/-- C6: on every one-second tick, a metric's summary line is emitted iff that
metric's sample count is nonzero (a zero-sample window suppresses only that
metric's line, and the quotient `sum / samples` is only formed inside the
emitted line), and both aggregators are reset to the empty state at the end
of the tick whether or not their summaries were emitted. -/
theorem C6_tick_emission_reset (c : my_conn) :
    ((sul_hz_cb c).snd.price_line = none ↔ c.price_range.samples = 0) ∧
    ((sul_hz_cb c).snd.elat_line = none ↔ c.e_lat_range.samples = 0) ∧
    (sul_hz_cb c).fst.price_range = range_reset ∧
    (sul_hz_cb c).fst.e_lat_range = range_reset := by
  refine ⟨?_, ?_, rfl, rfl⟩
  · unfold sul_hz_cb price_line_of
    by_cases h : c.price_range.samples = 0
    · simp [h]
    · simp [h]
  · unfold sul_hz_cb elat_line_of
    by_cases h : c.e_lat_range.samples = 0
    · simp [h]
    · simp [h]

/-! ## C7: unrecognized messages are skipped -/

/-- C7: a received message without the `"depthUpdate"` marker, or with it but
without the `"E":` marker, folds zero samples: the supervisor state, both
aggregators included, is left completely unchanged, and processing of any
subsequent message proceeds exactly as it would have from the original
state. -/
theorem C7_unrecognized_skipped (c : my_conn) (msg : List Char) (now_us : Int)
    (h : lws_json_simple_find msg depthUpdate_marker = none ∨
         lws_json_simple_find msg e_marker = none) :
    client_receive c msg now_us = c ∧
    ∀ (msg2 : List Char) (now2 : Int),
      client_receive (client_receive c msg now_us) msg2 now2 =
        client_receive c msg2 now2 := by
  have he : client_receive c msg now_us = c := by
    unfold client_receive
    rcases h with h | h
    · rw [h]
    · rcases hd : lws_json_simple_find msg depthUpdate_marker with _ | v
      · rfl
      · rw [h]
  exact ⟨he, fun msg2 now2 => by rw [he]⟩

/-- C7 witness: a message with no marker at all, and a message carrying
`"depthUpdate"` but no `"E":` marker, both leave a concrete state
unchanged. -/
theorem C7_witness :
    client_receive ⟨range_reset, range_reset, 0, false, true⟩
      "hello".toList 42 = ⟨range_reset, range_reset, 0, false, true⟩ ∧
    client_receive ⟨range_reset, range_reset, 0, false, true⟩
      "\"depthUpdate\",\"x\":1".toList 42 =
      ⟨range_reset, range_reset, 0, false, true⟩ :=
  ⟨(C7_unrecognized_skipped ⟨range_reset, range_reset, 0, false, true⟩
      "hello".toList 42 (Or.inl (by decide))).1,
   (C7_unrecognized_skipped ⟨range_reset, range_reset, 0, false, true⟩
      "\"depthUpdate\",\"x\":1".toList 42 (Or.inr (by decide))).1⟩

/-! ## C8: latency computation -/

/-- C8: for every message carrying both the `"depthUpdate"` and `"E":`
markers, the value folded into the latency aggregator is exactly
`now_us - E * 1000` microseconds, where `E` is the extracted field text
(copied through the bounded 16-byte buffer) parsed as milliseconds and
`now_us` is the single time sample taken for the message; the fold adds the
value to `sum` as-is — negative results included, with no clamping — and
increments `samples` by one. -/
theorem C8_latency_fold (c : my_conn) (msg : List Char) (now_us : Int)
    (dv ev : List Char)
    (h1 : lws_json_simple_find msg depthUpdate_marker = some dv)
    (h2 : lws_json_simple_find msg e_marker = some ev) :
    (client_receive c msg now_us).e_lat_range =
      range_fold c.e_lat_range
        (now_us - atoll (lws_strnncpy ev 16) * LWS_US_PER_MS) ∧
    (client_receive c msg now_us).e_lat_range.sum =
      c.e_lat_range.sum + (now_us - atoll (lws_strnncpy ev 16) * LWS_US_PER_MS) ∧
    (client_receive c msg now_us).e_lat_range.samples =
      c.e_lat_range.samples + 1 := by
  unfold client_receive
  rw [h1, h2]
  rcases lws_json_simple_find msg a_marker with _ | pv
  · exact ⟨rfl, rfl, rfl⟩
  · exact ⟨rfl, rfl, rfl⟩

/-- C8 witness: a concrete depthUpdate message with `"E":1500` received at
`now_us = 0` folds the negative latency `0 - 1500 * 1000 = -1500000` as-is. -/
theorem C8_witness :
    (client_receive ⟨range_reset, range_reset, 0, false, true⟩
      "\"depthUpdate\",\"E\":1500,\"q\"".toList 0).e_lat_range.sum = -1500000 ∧
    (client_receive ⟨range_reset, range_reset, 0, false, true⟩
      "\"depthUpdate\",\"E\":1500,\"q\"".toList 0).e_lat_range.samples = 1 := by
  have h := C8_latency_fold ⟨range_reset, range_reset, 0, false, true⟩
    "\"depthUpdate\",\"E\":1500,\"q\"".toList 0 [] "1500".toList
    (by decide) (by decide)
  refine ⟨?_, ?_⟩
  · rw [h.2.1]
    decide
  · rw [h.2.2]
    decide

/-! ## C10: latency-only messages -/

/-- C10: a message with the `"depthUpdate"` and `"E":` markers but without the
price marker `"a":[["` folds exactly one sample into the latency aggregator
and leaves the price aggregator entirely unchanged, so the two aggregators'
sample counts within one window can differ. -/
theorem C10_latency_only (c : my_conn) (msg : List Char) (now_us : Int)
    (dv ev : List Char)
    (h1 : lws_json_simple_find msg depthUpdate_marker = some dv)
    (h2 : lws_json_simple_find msg e_marker = some ev)
    (h3 : lws_json_simple_find msg a_marker = none) :
    (client_receive c msg now_us).price_range = c.price_range ∧
    (client_receive c msg now_us).e_lat_range.samples =
      c.e_lat_range.samples + 1 ∧
    (client_receive c msg now_us).e_lat_range =
      range_fold c.e_lat_range
        (now_us - atoll (lws_strnncpy ev 16) * LWS_US_PER_MS) := by
  unfold client_receive
  rw [h1, h2, h3]
  exact ⟨rfl, rfl, rfl⟩

/-- C10 witness: a concrete depthUpdate message without an ask-price marker
leaves the price aggregator at zero samples while the latency aggregator
gains one sample. -/
theorem C10_witness :
    (client_receive ⟨range_reset, range_reset, 0, false, true⟩
      "\"depthUpdate\",\"E\":1500,\"q\"".toList 77).price_range.samples = 0 ∧
    (client_receive ⟨range_reset, range_reset, 0, false, true⟩
      "\"depthUpdate\",\"E\":1500,\"q\"".toList 77).e_lat_range.samples = 1 := by
  have h := C10_latency_only ⟨range_reset, range_reset, 0, false, true⟩
    "\"depthUpdate\",\"E\":1500,\"q\"".toList 77 [] "1500".toList
    (by decide) (by decide) (by decide)
  refine ⟨?_, ?_⟩
  · rw [h.1]
    decide
  · rw [h.2.1]
    decide
